import Mathlib

/-!
Verification of the resource-constrained real-time video OCR relay
(`oldversion.py`): the MJPEG frame demuxer, the bounded frame buffer with its
drop-oldest policy, the competing consumers, the OCR sampling loop, the HTTP
surface and the lifecycle teardown, shallowly embedded as executable Lean
definitions with theorems about them.
-/

/-- Bytes of the raw stream are modelled as natural numbers (0..255 in use). -/
abbrev Byte := Nat

/-- A frame is an immutable byte sequence, `bytes` in Python. -/
abbrev Frame := List Byte

/-- `FRAME_BUFFER_SIZE = 20`: max number of MJPEG frames in the buffer. -/
def FRAME_BUFFER_SIZE : Nat := 20

/-- `OCR_FRAME_INTERVAL = 30`: process every Nth taken frame for OCR. -/
def OCR_FRAME_INTERVAL : Nat := 30

/-- Does the list start with the two-byte pattern `a, b`?  Helper for the
embedding of Python's `bytes.find` on a two-byte needle. -/
def startsWithPair (a b : Byte) : List Byte → Bool
  | x :: y :: _ => x == a && y == b
  | _ => false

/-- `find2 a b l` embeds Python's `l.find(bytes([a, b]))`: the index of the
first occurrence of the two-byte pattern `a, b` in `l`, or `none` when the
pattern does not occur (Python returns `-1`). -/
def find2 (a b : Byte) : List Byte → Option Nat
  | [] => none
  | x :: rest =>
    if startsWithPair a b (x :: rest) then some 0
    else (find2 a b rest).map (· + 1)

theorem startsWithPair_iff (a b : Byte) (l : List Byte) :
    startsWithPair a b l = true ↔ l.get? 0 = some a ∧ l.get? 1 = some b := by
  match l with
  | [] => simp [startsWithPair]
  | [x] => simp [startsWithPair]
  | x :: y :: rest =>
    simp [startsWithPair, List.get?]

/-- When `find2` finds an index, the pattern occurs there and nowhere earlier. -/
theorem find2_some (a b : Byte) (l : List Byte) (i : Nat)
    (h : find2 a b l = some i) :
    l.get? i = some a ∧ l.get? (i + 1) = some b ∧
      ∀ j < i, ¬(l.get? j = some a ∧ l.get? (j + 1) = some b) := by
  induction l generalizing i with
  | nil => simp [find2] at h
  | cons x rest ih =>
    rw [find2] at h
    by_cases hs : startsWithPair a b (x :: rest) = true
    · rw [if_pos hs] at h
      obtain ⟨h0, h1⟩ := (startsWithPair_iff a b (x :: rest)).1 hs
      cases h
      exact ⟨h0, h1, by omega⟩
    · rw [if_neg hs] at h
      match hr : find2 a b rest with
      | none => rw [hr] at h; simp at h
      | some j =>
        rw [hr] at h
        simp at h
        subst h
        obtain ⟨r0, r1, rmin⟩ := ih j hr
        refine ⟨r0, r1, ?_⟩
        intro k hk hkpair
        match k with
        | 0 =>
          exact hs ((startsWithPair_iff a b (x :: rest)).2 hkpair)
        | k + 1 =>
          exact rmin k (by omega) ⟨hkpair.1, hkpair.2⟩

/-- When `find2` finds nothing, the pattern occurs nowhere. -/
theorem find2_none (a b : Byte) (l : List Byte)
    (h : find2 a b l = none) :
    ∀ j, ¬(l.get? j = some a ∧ l.get? (j + 1) = some b) := by
  induction l with
  | nil => intro j ⟨h1, _⟩; simp at h1
  | cons x rest ih =>
    rw [find2] at h
    by_cases hs : startsWithPair a b (x :: rest) = true
    · rw [if_pos hs] at h; simp at h
    · rw [if_neg hs] at h
      intro j hj
      match j with
      | 0 => exact hs ((startsWithPair_iff a b (x :: rest)).2 hj)
      | j + 1 =>
        match hr : find2 a b rest with
        | some k => rw [hr] at h; simp at h
        | none => exact ih hr j ⟨hj.1, hj.2⟩

/-- If the pattern occurs at `i`, `find2` finds it at some index `≤ i`. -/
theorem find2_exists (a b : Byte) (l : List Byte) (i : Nat)
    (h1 : l.get? i = some a) (h2 : l.get? (i + 1) = some b) :
    ∃ j ≤ i, find2 a b l = some j := by
  match hr : find2 a b l with
  | none => exact absurd ⟨h1, h2⟩ (find2_none a b l hr i)
  | some j =>
    refine ⟨j, ?_, rfl⟩
    by_contra hlt
    exact (find2_some a b l j hr).2.2 i (by omega) ⟨h1, h2⟩

/-- Converse characterisation: an occurrence that is minimal is what `find2`
returns. -/
theorem find2_of_minimal (a b : Byte) (l : List Byte) (i : Nat)
    (h1 : l.get? i = some a) (h2 : l.get? (i + 1) = some b)
    (hmin : ∀ j < i, ¬(l.get? j = some a ∧ l.get? (j + 1) = some b)) :
    find2 a b l = some i := by
  obtain ⟨j, hji, hj⟩ := find2_exists a b l i h1 h2
  obtain ⟨j1, j2, _⟩ := find2_some a b l j hj
  rcases Nat.lt_or_ge j i with hlt | hge
  · exact absurd ⟨j1, j2⟩ (hmin j hlt)
  · have : j = i := by omega
    rw [← this]; exact hj

/-- Appending bytes never changes an already-found first occurrence: the index
returned by `find2` is stable under extending the buffer on the right. -/
theorem find2_append_some (a b : Byte) (l c : List Byte) (i : Nat)
    (h : find2 a b l = some i) : find2 a b (l ++ c) = some i := by
  obtain ⟨h1, h2, hmin⟩ := find2_some a b l i h
  have hlen : i + 1 < l.length := (List.get?_eq_some.1 h2).1
  have h1' : (l ++ c).get? i = some a := by
    rw [List.get?_append (by omega)]; exact h1
  have h2' : (l ++ c).get? (i + 1) = some b := by
    rw [List.get?_append hlen]; exact h2
  refine find2_of_minimal a b (l ++ c) i h1' h2' ?_
  intro j hj ⟨hj1, hj2⟩
  rw [List.get?_append (by omega)] at hj1
  rw [List.get?_append (by omega)] at hj2
  exact hmin j hj ⟨hj1, hj2⟩

/-- If the pattern is absent from `l`, any occurrence in `l ++ c` starts at or
beyond the last byte of `l` (it straddles the junction or lies inside `c`). -/
theorem find2_append_none (a b : Byte) (l c : List Byte) (i : Nat)
    (hn : find2 a b l = none) (h : find2 a b (l ++ c) = some i) :
    l.length ≤ i + 1 := by
  by_contra hlt
  obtain ⟨h1, h2, _⟩ := find2_some a b (l ++ c) i h
  rw [List.get?_append (by omega)] at h1
  rw [List.get?_append (by omega)] at h2
  exact find2_none a b l hn i ⟨h1, h2⟩

/-- Fuel-indexed embedding of the inner `while` loop of `mjpeg_frame_reader`
(`oldversion.py` lines 49-68): while a `0xFFD8` start marker and a `0xFFD9`
end marker are both found with the start strictly before the end, slice out
`jpeg_data[start_index : end_index + 2]` as one frame, keep
`jpeg_data[end_index + 2:]`, and rescan.  Each iteration removes at least two
bytes, so `data.length` is always enough fuel. -/
def extractLoopF : Nat → List Byte → List Frame × List Byte
  | 0, data => ([], data)
  | fuel + 1, data =>
    match find2 0xff 0xd8 data, find2 0xff 0xd9 data with
    | some s, some e =>
      if s < e then
        let fr := (data.drop s).take (e + 2 - s)
        let p := extractLoopF fuel (data.drop (e + 2))
        (fr :: p.1, p.2)
      else ([], data)
    | some _, none => ([], data)
    | none, _ => ([], data)

/-- The accumulation-and-extraction pass run on buffer contents `data`:
the frames extracted and the retained tail of the buffer. -/
def extractLoop (data : List Byte) : List Frame × List Byte :=
  extractLoopF data.length data

/-- An end-marker index found by `find2` is at least two bytes inside. -/
theorem find2_lt_length (a b : Byte) (l : List Byte) (i : Nat)
    (h : find2 a b l = some i) : i + 1 < l.length := by
  obtain ⟨_, h2, _⟩ := find2_some a b l i h
  exact (List.get?_eq_some.1 h2).1

/-- `extractLoopF` ignores the exact amount of fuel as long as it is at least
the length of the buffer. -/
theorem extractLoopF_fuel (f1 f2 : Nat) (data : List Byte)
    (h1 : data.length ≤ f1) (h2 : data.length ≤ f2) :
    extractLoopF f1 data = extractLoopF f2 data := by
  induction f1 generalizing f2 data with
  | zero =>
    have : data = [] := List.length_eq_zero.1 (by omega)
    subst this
    match f2 with
    | 0 => rfl
    | g + 1 => simp [extractLoopF, find2]
  | succ g1 ih =>
    match f2 with
    | 0 =>
      have : data = [] := List.length_eq_zero.1 (by omega)
      subst this
      simp [extractLoopF, find2]
    | g2 + 1 =>
      rw [extractLoopF, extractLoopF]
      match hs : find2 0xff 0xd8 data, he : find2 0xff 0xd9 data with
      | some s, some e =>
        simp only
        by_cases hlt : s < e
        · rw [if_pos hlt, if_pos hlt]
          have helen : e + 1 < data.length := find2_lt_length _ _ _ _ he
          rw [ih g2 (data.drop (e + 2)) (by rw [List.length_drop]; omega)
            (by rw [List.length_drop]; omega)]
        · rw [if_neg hlt, if_neg hlt]
      | some _, none => simp only
      | none, some _ => simp only
      | none, none => simp only

/-- One unfolding of `extractLoop` when the extraction condition holds:
a start marker at `s` and an end marker at `e` with `s < e` produce the slice
`jpeg_data[s : e + 2]` and the loop continues on `jpeg_data[e + 2 :]`. -/
theorem extractLoop_step (data : List Byte) (s e : Nat)
    (hs : find2 0xff 0xd8 data = some s) (he : find2 0xff 0xd9 data = some e)
    (hlt : s < e) :
    extractLoop data =
      ((data.drop s).take (e + 2 - s) :: (extractLoop (data.drop (e + 2))).1,
        (extractLoop (data.drop (e + 2))).2) := by
  have hl : e + 1 < data.length := find2_lt_length _ _ _ _ he
  obtain ⟨m, hm⟩ : ∃ m, data.length = m + 1 := ⟨data.length - 1, by omega⟩
  have key : extractLoop data = extractLoopF (m + 1) data := by
    rw [extractLoop, hm]
  rw [key, extractLoopF, hs, he]
  simp only [if_pos hlt]
  have hfuel : extractLoopF m (data.drop (e + 2)) = extractLoop (data.drop (e + 2)) := by
    rw [extractLoop]
    exact extractLoopF_fuel m _ _ (by rw [List.length_drop]; omega) (le_refl _)
  rw [hfuel]

/-- When no start/end marker pair with start before end is present, the loop
extracts nothing and retains the whole buffer. -/
theorem extractLoop_no_step (data : List Byte)
    (h : ∀ s e, find2 0xff 0xd8 data = some s → find2 0xff 0xd9 data = some e →
      ¬ s < e) :
    extractLoop data = ([], data) := by
  match hm : data.length with
  | 0 => rw [extractLoop, hm, extractLoopF]
  | m + 1 =>
    rw [extractLoop, hm, extractLoopF]
    match hs : find2 0xff 0xd8 data, he : find2 0xff 0xd9 data with
    | some s, some e =>
      simp only
      rw [if_neg (h s e hs he)]
    | some _, none => simp only
    | none, some _ => simp only
    | none, none => simp only

/-- Extraction distributes over appending further bytes to the buffer: running
the scan on `data ++ c` extracts first what `data` alone yields, then what the
retained tail extended by `c` yields.  This is what makes the frames emitted by
the demuxer independent of how the stream is cut into `read(4096)` chunks. -/
theorem extractLoop_append (data c : List Byte) :
    extractLoop (data ++ c) =
      ((extractLoop data).1 ++ (extractLoop ((extractLoop data).2 ++ c)).1,
        (extractLoop ((extractLoop data).2 ++ c)).2) := by
  obtain ⟨n, hn⟩ : ∃ n, data.length ≤ n := ⟨data.length, le_refl _⟩
  induction n generalizing data c with
  | zero =>
    have : data = [] := List.length_eq_zero.1 (by omega)
    subst this
    have h0 : extractLoop [] = ([], []) := rfl
    rw [h0]
    simp
  | succ n ih =>
    match hs : find2 0xff 0xd8 data, he : find2 0xff 0xd9 data with
    | some s, some e =>
      by_cases hlt : s < e
      · have hl : e + 1 < data.length := find2_lt_length _ _ _ _ he
        have hs' : find2 0xff 0xd8 (data ++ c) = some s := find2_append_some _ _ _ _ _ hs
        have he' : find2 0xff 0xd9 (data ++ c) = some e := find2_append_some _ _ _ _ _ he
        rw [extractLoop_step (data ++ c) s e hs' he' hlt,
          extractLoop_step data s e hs he hlt]
        have hdrop_s : (data ++ c).drop s = data.drop s ++ c := by
          rw [List.drop_append_eq_append_drop, Nat.sub_eq_zero_of_le (by omega),
            List.drop]
        have hdrop_e : (data ++ c).drop (e + 2) = data.drop (e + 2) ++ c := by
          rw [List.drop_append_eq_append_drop, Nat.sub_eq_zero_of_le (by omega),
            List.drop]
        have htake : (data.drop s ++ c).take (e + 2 - s) =
            (data.drop s).take (e + 2 - s) := by
          have hz : e + 2 - s - (data.drop s).length = 0 := by
            rw [List.length_drop]; omega
          rw [List.take_append_eq_append_take, hz]
          simp
        rw [hdrop_s, htake, hdrop_e]
        rw [ih (data.drop (e + 2)) c (by rw [List.length_drop]; omega)]
        simp
      · have hno : extractLoop data = ([], data) := by
          apply extractLoop_no_step
          intro s' e' hs'' he''
          rw [hs] at hs''; rw [he] at he''
          cases hs''; cases he''; exact hlt
        rw [hno]
        simp
    | some s, none =>
      have hno : extractLoop data = ([], data) := by
        apply extractLoop_no_step
        intro s' e' _ he''
        rw [he] at he''; cases he''
      rw [hno]; simp
    | none, some e =>
      have hno : extractLoop data = ([], data) := by
        apply extractLoop_no_step
        intro s' e' hs'' _
        rw [hs] at hs''; cases hs''
      rw [hno]; simp
    | none, none =>
      have hno : extractLoop data = ([], data) := by
        apply extractLoop_no_step
        intro s' e' hs'' _
        rw [hs] at hs''; cases hs''
      rw [hno]; simp

/-- Embedding of the outer loop of `mjpeg_frame_reader` (`oldversion.py`
lines 39-74) over a prescribed sequence of chunks returned by
`ffmpeg_stdout.read(4096)`: starting from accumulated bytes `acc`, read each
chunk (an empty chunk is the zero-length read signalling EOF and breaks the
loop), append it to the accumulation buffer, run the extraction scan, and pass
every extracted frame on in order.  Returns the emitted frames in submission
order together with the final accumulation buffer. -/
def readerRun : List (List Byte) → List Byte → List Frame × List Byte
  | [], acc => ([], acc)
  | ch :: chs, acc =>
    if ch = [] then ([], acc)
    else
      let p := extractLoop (acc ++ ch)
      let q := readerRun chs p.2
      (p.1 ++ q.1, q.2)

/-- The frames the demuxer thread submits to the frame buffer, in order, when
fed the given chunk sequence (the accumulation buffer starts empty). -/
def mjpeg_frame_reader (chunks : List (List Byte)) : List Frame :=
  (readerRun chunks []).1

/-- Feeding the chunks one by one is the same as scanning the concatenated
stream, as long as no chunk is empty (a zero-length read means EOF). -/
theorem readerRun_join (chunks : List (List Byte)) (acc : List Byte)
    (hne : ∀ ch ∈ chunks, ch ≠ []) (h : chunks ≠ []) :
    readerRun chunks acc = extractLoop (acc ++ chunks.join) := by
  induction chunks generalizing acc with
  | nil => exact absurd rfl h
  | cons ch chs ih =>
    have hc : ch ≠ [] := hne ch (by simp)
    rcases eq_or_ne chs [] with hcs | hcs
    · subst hcs
      rw [readerRun, if_neg hc]
      simp [readerRun]
    · rw [readerRun, if_neg hc]
      simp only
      rw [ih (extractLoop (acc ++ ch)).2 (fun d hd => hne d (by simp [hd])) hcs]
      have : acc ++ (ch :: chs).join = (acc ++ ch) ++ chs.join := by
        simp [List.join]
      rw [this, extractLoop_append (acc ++ ch) chs.join]

/-- One well-formed JPEG frame: the `0xFFD8` start marker, a payload, and the
`0xFFD9` end marker.  This is exactly the minimal inclusive byte range from
the start marker through the end marker. -/
def frameOf (p : List Byte) : Frame :=
  0xff :: 0xd8 :: (p ++ [0xff, 0xd9])

/-- A byte segment free of both JPEG markers: neither `0xFFD8` nor `0xFFD9`
occurs in it. -/
def markerFree (l : List Byte) : Bool :=
  (find2 0xff 0xd8 l == none) && (find2 0xff 0xd9 l == none)

/-- A stream holding exactly one well-formed, non-overlapping marker pair per
segment: junk `j`, then for each `(p, j')` in `segs` the frame `frameOf p`
followed by junk `j'`. -/
def buildStream : List Byte → List (List Byte × List Byte) → List Byte
  | j, [] => j
  | j, (p, j') :: rest => j ++ frameOf p ++ buildStream j' rest

/-- The trailing junk after the last complete frame of `buildStream`. -/
def lastJunk : List Byte → List (List Byte × List Byte) → List Byte
  | j, [] => j
  | _, (_, j') :: rest => lastJunk j' rest

theorem markerFree_SOI {l : List Byte} (h : markerFree l = true) :
    find2 0xff 0xd8 l = none := by
  simp [markerFree] at h
  exact h.1

theorem markerFree_EOI {l : List Byte} (h : markerFree l = true) :
    find2 0xff 0xd9 l = none := by
  simp [markerFree] at h
  exact h.2

/-- Index arithmetic helper: reading past a left append block. -/
theorem get?_append_add (l r : List Byte) (n : Nat) :
    (l ++ r).get? (l.length + n) = r.get? n := by
  rw [List.get?_append_right (by omega)]
  congr 1
  omega

/-- In junk, frame payload, junk well-formed position: the first `0xFFD8` of
`junk ++ frame ++ tail` is exactly at the frame's start, when the junk holds
no marker. -/
theorem find2_SOI_stream (j p t : List Byte) (hj : markerFree j = true) :
    find2 0xff 0xd8 (j ++ 0xff :: 0xd8 :: (p ++ 0xff :: 0xd9 :: t)) =
      some j.length := by
  apply find2_of_minimal
  · have := get?_append_add j (0xff :: 0xd8 :: (p ++ 0xff :: 0xd9 :: t)) 0
    rw [Nat.add_zero] at this
    rw [this]
    rfl
  · rw [get?_append_add j (0xff :: 0xd8 :: (p ++ 0xff :: 0xd9 :: t)) 1]
    rfl
  · intro k hk ⟨h1, h2⟩
    rcases Nat.lt_or_ge (k + 1) j.length with hlt | hge
    · rw [List.get?_append (by omega)] at h1
      rw [List.get?_append hlt] at h2
      exact find2_none _ _ _ (markerFree_SOI hj) k ⟨h1, h2⟩
    · have hkJ : k + 1 = j.length := by omega
      have : (j ++ 0xff :: 0xd8 :: (p ++ 0xff :: 0xd9 :: t)).get? (k + 1) =
          some 0xff := by
        rw [hkJ]
        have := get?_append_add j (0xff :: 0xd8 :: (p ++ 0xff :: 0xd9 :: t)) 0
        rw [Nat.add_zero] at this
        rw [this]
        rfl
      rw [this] at h2
      simp at h2

/-- Same stream shape: the first `0xFFD9` is exactly at the frame's end marker,
when neither the junk nor the payload holds a marker. -/
theorem find2_EOI_stream (j p t : List Byte) (hj : markerFree j = true)
    (hp : markerFree p = true) :
    find2 0xff 0xd9 (j ++ 0xff :: 0xd8 :: (p ++ 0xff :: 0xd9 :: t)) =
      some (j.length + 2 + p.length) := by
  have hX : ∀ n, (j ++ 0xff :: 0xd8 :: (p ++ 0xff :: 0xd9 :: t)).get?
      (j.length + n) = (0xff :: 0xd8 :: (p ++ 0xff :: 0xd9 :: t)).get? n :=
    fun n => get?_append_add j _ n
  have hcons2 : ∀ n, (0xff :: 0xd8 :: (p ++ 0xff :: 0xd9 :: t)).get? (n + 2) =
      (p ++ 0xff :: 0xd9 :: t).get? n := by
    intro n
    have e1 : n + 2 = (n + 1) + 1 := rfl
    rw [e1, List.get?_cons_succ, List.get?_cons_succ]
  apply find2_of_minimal
  · have e1 : j.length + 2 + p.length = j.length + (p.length + 2) := by omega
    rw [e1, hX (p.length + 2), hcons2 p.length,
      List.get?_append_right (le_refl _), Nat.sub_self]
    rfl
  · have e1 : j.length + 2 + p.length + 1 = j.length + (p.length + 3) := by
      omega
    have e2 : p.length + 3 = (p.length + 1) + 2 := by omega
    rw [e1, hX (p.length + 3), e2, hcons2 (p.length + 1),
      get?_append_add p (0xff :: 0xd9 :: t) 1]
    rfl
  · intro k hk ⟨h1, h2⟩
    rcases Nat.lt_or_ge (k + 1) j.length with c1 | c1
    · rw [List.get?_append (by omega)] at h1
      rw [List.get?_append c1] at h2
      exact find2_none _ _ _ (markerFree_EOI hj) k ⟨h1, h2⟩
    rcases Nat.lt_or_ge k j.length with c2 | c2
    · have hkJ : k + 1 = j.length + 0 := by omega
      rw [hkJ, hX 0] at h2
      simp at h2
    rcases eq_or_ne k j.length with c3 | c3
    · have : k + 1 = j.length + 1 := by omega
      rw [this, hX 1] at h2
      simp at h2
    rcases eq_or_ne k (j.length + 1) with c4 | c4
    · rw [c4, hX 1] at h1
      simp at h1
    have c5 : j.length + 2 ≤ k := by omega
    rcases Nat.lt_or_ge (k + 1) (j.length + 2 + p.length) with c6 | c6
    · have e1 : k = j.length + ((k - j.length - 2) + 2) := by omega
      have e2 : k + 1 = j.length + ((k - j.length - 2 + 1) + 2) := by omega
      rw [e1, hX _, hcons2 _] at h1
      rw [e2, hX _, hcons2 _] at h2
      rw [List.get?_append (by omega)] at h1
      rw [List.get?_append (by omega)] at h2
      exact find2_none _ _ _ (markerFree_EOI hp) (k - j.length - 2) ⟨h1, h2⟩
    · have e2 : k + 1 = j.length + (p.length + 2) := by omega
      rw [e2, hX _, hcons2 _, List.get?_append_right (le_refl _),
        Nat.sub_self] at h2
      simp at h2

/-- On a complete well-formed stream the scan loop extracts exactly its frames
in order, leaving the trailing junk in the buffer. -/
theorem extractLoop_build (segs : List (List Byte × List Byte))
    (j : List Byte) (hj : markerFree j = true)
    (hsegs : ∀ s ∈ segs, markerFree s.1 = true ∧ markerFree s.2 = true) :
    extractLoop (buildStream j segs) =
      (segs.map (fun s => frameOf s.1), lastJunk j segs) := by
  induction segs generalizing j with
  | nil =>
    rw [buildStream, lastJunk]
    simp only [List.map_nil]
    apply extractLoop_no_step
    intro s e hs _
    rw [markerFree_SOI hj] at hs
    cases hs
  | cons seg rest ih =>
    obtain ⟨p, j'⟩ := seg
    have hp : markerFree p = true := (hsegs (p, j') (by simp)).1
    have hshape : buildStream j ((p, j') :: rest) =
        j ++ 0xff :: 0xd8 :: (p ++ 0xff :: 0xd9 :: buildStream j' rest) := by
      simp [buildStream, frameOf]
    rw [hshape]
    have hS := find2_SOI_stream j p (buildStream j' rest) hj
    have hE := find2_EOI_stream j p (buildStream j' rest) hj hp
    rw [extractLoop_step _ _ _ hS hE (by omega)]
    have hdropJ : (j ++ 0xff :: 0xd8 :: (p ++ 0xff :: 0xd9 ::
        buildStream j' rest)).drop j.length =
        0xff :: 0xd8 :: (p ++ 0xff :: 0xd9 :: buildStream j' rest) :=
      List.drop_left _ _
    have harith : j.length + 2 + p.length + 2 - j.length = p.length + 4 := by
      omega
    have hfr : ((j ++ 0xff :: 0xd8 :: (p ++ 0xff :: 0xd9 ::
        buildStream j' rest)).drop j.length).take
        (j.length + 2 + p.length + 2 - j.length) = frameOf p := by
      rw [hdropJ, harith]
      have e4 : p.length + 4 = (p.length + 3) + 1 := rfl
      have e3 : p.length + 3 = (p.length + 2) + 1 := rfl
      rw [e4, List.take_succ_cons, e3, List.take_succ_cons]
      rw [List.take_append_eq_append_take,
        List.take_of_length_le (by omega : p.length ≤ p.length + 2)]
      have e2 : p.length + 2 - p.length = 2 := by omega
      rw [e2]
      rfl
    have hrest : (j ++ 0xff :: 0xd8 :: (p ++ 0xff :: 0xd9 ::
        buildStream j' rest)).drop (j.length + 2 + p.length + 2) =
        buildStream j' rest := by
      rw [List.drop_append_eq_append_drop,
        List.drop_eq_nil_of_le (by omega : j.length ≤ j.length + 2 + p.length + 2)]
      have e1 : j.length + 2 + p.length + 2 - j.length = (p.length + 3) + 1 := by
        omega
      rw [e1, List.nil_append, List.drop_succ_cons]
      have e2 : p.length + 3 = (p.length + 2) + 1 := rfl
      rw [e2, List.drop_succ_cons]
      rw [List.drop_append_eq_append_drop,
        List.drop_eq_nil_of_le (by omega : p.length ≤ p.length + 2)]
      have e3 : p.length + 2 - p.length = 2 := by omega
      rw [e3, List.nil_append]
      rfl
    rw [hfr, hrest, ih j' (hsegs (p, j') (by simp)).2
      (fun s hs => hsegs s (by simp [hs]))]
    rw [lastJunk]
    simp

/-- C1: fed a byte stream (in arbitrary non-empty read chunks) containing
exactly `M` well-formed, non-overlapping JPEG marker pairs — junk `j0`, then
for each of the `M` payload/junk segments the frame `0xFFD8 ++ payload ++
0xFFD9` followed by junk, all junk and payloads marker-free — the frame
demuxer `mjpeg_frame_reader` emits exactly the `M` frames, each equal to the
minimal inclusive byte range from its start marker through its end marker,
and submits them to the buffer in stream order. -/
theorem demuxer_emits_exactly_the_frames (chunks : List (List Byte))
    (j0 : List Byte) (segs : List (List Byte × List Byte))
    (hne : ∀ ch ∈ chunks, ch ≠ [])
    (hjoin : chunks.join = buildStream j0 segs)
    (hj0 : markerFree j0 = true)
    (hsegs : ∀ s ∈ segs, markerFree s.1 = true ∧ markerFree s.2 = true) :
    mjpeg_frame_reader chunks = segs.map (fun s => frameOf s.1) ∧
      (mjpeg_frame_reader chunks).length = segs.length := by
  rcases eq_or_ne chunks [] with hch | hch
  · subst hch
    have hempty : buildStream j0 segs = [] := by
      rw [← hjoin]; rfl
    match segs with
    | [] => exact ⟨rfl, rfl⟩
    | (p, j') :: rest =>
      rw [buildStream] at hempty
      have : (j0 ++ frameOf p ++ buildStream j' rest).length = 0 := by
        rw [hempty]; rfl
      simp [frameOf] at this
  · have h1 : mjpeg_frame_reader chunks = (extractLoop ([] ++ chunks.join)).1 := by
      rw [mjpeg_frame_reader, readerRun_join chunks [] hne hch]
    rw [List.nil_append] at h1
    rw [h1, hjoin, extractLoop_build segs j0 hj0 hsegs]
    simp

/-- Witness for C1: a two-chunk stream holding two frames, split mid-frame. -/
theorem demuxer_emits_exactly_the_frames_witness :
    mjpeg_frame_reader [[0x00, 0xff, 0xd8, 0x41], [0x42, 0xff, 0xd9, 0xff, 0xd8, 0xff, 0xd9, 0x07]] =
      [[0xff, 0xd8, 0x41, 0x42, 0xff, 0xd9], [0xff, 0xd8, 0xff, 0xd9]] ∧
      (mjpeg_frame_reader [[0x00, 0xff, 0xd8, 0x41], [0x42, 0xff, 0xd9, 0xff, 0xd8, 0xff, 0xd9, 0x07]]).length = 2 := by
  have h := demuxer_emits_exactly_the_frames
    [[0x00, 0xff, 0xd8, 0x41], [0x42, 0xff, 0xd9, 0xff, 0xd8, 0xff, 0xd9, 0x07]]
    [0x00] [([0x41, 0x42], []), ([], [0x07])]
    (by decide) (by decide) (by decide) (by decide)
  exact ⟨by rw [h.1]; rfl, h.2⟩

/-- The `queue.Full` handler of the producer's put path (`oldversion.py`
lines 56-63): `get_nowait()` then `put_nowait(frame)`.  If the buffer has been
drained in the meantime, `get_nowait` raises `queue.Empty` and the handler
`pass`es — the new frame is silently dropped. -/
def dropOldestPut (q : List Frame) (f : Frame) : List Frame :=
  match q with
  | [] => []
  | _ :: rest => rest ++ [f]

/-- The producer's whole put path (`oldversion.py` lines 54-63).
`q` is the buffer at the moment the timed `put` gives up; `takes` is the
number of frames concurrent consumers remove between the `queue.Full`
exception and the `get_nowait` retry (0 when there is no concurrent `take`).
If the buffer is not full the frame is appended; otherwise the retry handler
runs against the drained buffer `q.drop takes`. -/
def producerPut (q : List Frame) (takes : Nat) (f : Frame) : List Frame :=
  if q.length < FRAME_BUFFER_SIZE then q ++ [f]
  else dropOldestPut (q.drop takes) f

/-- Sequential insertion with no concurrent `take`. -/
def put1 (q : List Frame) (f : Frame) : List Frame := producerPut q 0 f

/-- Inserting a whole list of frames sequentially, oldest first. -/
def putAll (q : List Frame) (fs : List Frame) : List Frame := fs.foldl put1 q

theorem putAll_of_le (fs : List Frame) (q : List Frame)
    (h : q.length + fs.length ≤ FRAME_BUFFER_SIZE) : putAll q fs = q ++ fs := by
  induction fs generalizing q with
  | nil => simp [putAll]
  | cons f rest ih =>
    have hlen : q.length < FRAME_BUFFER_SIZE := by
      simp [List.length_cons] at h
      omega
    have step : put1 q f = q ++ [f] := by
      rw [put1, producerPut, if_pos hlen]
    rw [putAll, List.foldl_cons]
    have : putAll (put1 q f) rest = (put1 q f) ++ rest := by
      apply ih
      rw [step]
      simp at h ⊢
      omega
    rw [← putAll, this, step]
    simp

/-- C2: inserting `FRAME_BUFFER_SIZE + 1 = 21` frames sequentially through the
producer's put path, with no concurrent `take`, retains exactly the most
recent 20 insertions in their original order: only the oldest frame of the 21
is evicted. -/
theorem buffer_drop_oldest_on_21st (fs : List Frame)
    (h : fs.length = FRAME_BUFFER_SIZE + 1) :
    putAll [] fs = fs.tail ∧ (putAll [] fs).length = FRAME_BUFFER_SIZE := by
  have hsplit : fs = fs.take FRAME_BUFFER_SIZE ++ fs.drop FRAME_BUFFER_SIZE :=
    (List.take_append_drop _ _).symm
  obtain ⟨x, hx⟩ : ∃ x, fs.drop FRAME_BUFFER_SIZE = [x] := by
    have hlen : (fs.drop FRAME_BUFFER_SIZE).length = 1 := by
      rw [List.length_drop, h]
      omega
    match hd : fs.drop FRAME_BUFFER_SIZE with
    | [x] => exact ⟨x, rfl⟩
    | [] => rw [hd] at hlen; simp at hlen
    | x :: y :: r => rw [hd] at hlen; simp at hlen
  have htlen : (fs.take FRAME_BUFFER_SIZE).length = FRAME_BUFFER_SIZE := by
    rw [List.length_take]
    omega
  have h1 : putAll [] fs =
      putAll (putAll [] (fs.take FRAME_BUFFER_SIZE)) (fs.drop FRAME_BUFFER_SIZE) := by
    rw [putAll, putAll, putAll]
    rw [← List.foldl_append]
    rw [← hsplit]
  have h2 : putAll [] (fs.take FRAME_BUFFER_SIZE) = fs.take FRAME_BUFFER_SIZE := by
    have := putAll_of_le (fs.take FRAME_BUFFER_SIZE) [] (by simp [htlen])
    simpa using this
  obtain ⟨hd, tl, hht⟩ : ∃ hd tl, fs.take FRAME_BUFFER_SIZE = hd :: tl := by
    match ht : fs.take FRAME_BUFFER_SIZE with
    | y :: r => exact ⟨y, r, rfl⟩
    | [] => rw [ht] at htlen; simp [FRAME_BUFFER_SIZE] at htlen
  have h3 : putAll (fs.take FRAME_BUFFER_SIZE) [x] = tl ++ [x] := by
    rw [putAll, List.foldl_cons, List.foldl_nil, put1, producerPut,
      if_neg (by rw [htlen]; omega)]
    rw [List.drop_zero, hht]
    rfl
  have hfinal : putAll [] fs = tl ++ [x] := by
    rw [h1, h2, hx, h3]
  constructor
  · rw [hfinal]
    have : fs.tail = (hd :: tl ++ [x]).tail := by
      rw [← hht, ← hx, ← hsplit]
    rw [this]
    rfl
  · rw [hfinal]
    have : (hd :: tl).length = FRAME_BUFFER_SIZE := by rw [← hht]; exact htlen
    simp at this ⊢
    omega

/-- Witness for C2: 21 concrete one-byte frames; the first is evicted. -/
theorem buffer_drop_oldest_on_21st_witness :
    putAll [] ((List.range 21).map (fun n => [n])) =
      ((List.range 21).map (fun n => [n])).tail ∧
      (putAll [] ((List.range 21).map (fun n => [n]))).length = 20 := by
  have h := buffer_drop_oldest_on_21st ((List.range 21).map (fun n => [n]))
    (by decide)
  exact ⟨h.1, h.2⟩

/-- C10: when the timed `put` fails on a full buffer and the buffer is fully
drained by consumers before the `get_nowait` retry, the handler hits
`queue.Empty` and `pass`es: the new frame is silently discarded and is not in
the buffer when the put path returns. -/
theorem put_path_can_drop_new_frame (q : List Frame) (takes : Nat) (f : Frame)
    (hfull : q.length = FRAME_BUFFER_SIZE) (hdrained : q.length ≤ takes) :
    producerPut q takes f = [] ∧ f ∉ producerPut q takes f := by
  have hnf : ¬ q.length < FRAME_BUFFER_SIZE := by omega
  have hdrop : q.drop takes = [] := List.drop_eq_nil_of_le hdrained
  rw [producerPut, if_neg hnf, hdrop]
  exact ⟨rfl, by simp [dropOldestPut]⟩

/-- Witness for C10: a full buffer of 20 frames drained by 20 concurrent
takes; the produced frame `[99]` is dropped. -/
theorem put_path_can_drop_new_frame_witness :
    producerPut ((List.range 20).map (fun n => [n])) 20 [99] = [] ∧
      [99] ∉ producerPut ((List.range 20).map (fun n => [n])) 20 [99] := by
  exact put_path_can_drop_new_frame ((List.range 20).map (fun n => [n])) 20 [99]
    (by decide) (by decide)

/-- The counting core of `ocr_thread_func` (`oldversion.py` lines 195-228):
starting from counter value `count`, each taken frame increments the counter;
whenever the counter is divisible by `OCR_FRAME_INTERVAL` recognition is
invoked on that frame; other frames are discarded immediately.  Returns the
(counter value, frame) pairs on which recognition is invoked, in order. -/
def ocrSampledFrom (count : Nat) : List Frame → List (Nat × Frame)
  | [] => []
  | f :: fs =>
    if (count + 1) % OCR_FRAME_INTERVAL = 0 then
      (count + 1, f) :: ocrSampledFrom (count + 1) fs
    else
      ocrSampledFrom (count + 1) fs

/-- The recognition invocations of the sampling consumer over a run in which
it takes the given frames (`frame_count` starts at 0). -/
def ocrSampled (fs : List Frame) : List (Nat × Frame) := ocrSampledFrom 0 fs

/-- A block of taken frames none of whose counter values hits the sampling
interval is skipped entirely, only advancing the counter. -/
theorem ocrSampledFrom_skip (block : List Frame) (count : Nat)
    (rest : List Frame)
    (h : ∀ i < block.length, (count + i + 1) % OCR_FRAME_INTERVAL ≠ 0) :
    ocrSampledFrom count (block ++ rest) =
      ocrSampledFrom (count + block.length) rest := by
  induction block generalizing count with
  | nil => simp
  | cons f bl ih =>
    rw [List.cons_append, ocrSampledFrom]
    have h0 : (count + 1) % OCR_FRAME_INTERVAL ≠ 0 := by
      have := h 0 (by simp)
      simpa using this
    rw [if_neg h0, ih (count + 1) (by
      intro i hi
      have := h (i + 1) (by simp; omega)
      have e : count + (i + 1) + 1 = count + 1 + i + 1 := by omega
      rw [e] at this
      exact this)]
    congr 1
    simp
    omega

/-- C6: with `OCR_FRAME_INTERVAL = 30`, a run in which the sampling consumer
takes 61 frames invokes recognition exactly twice — at taken-frame counts 30
and 60, on the 30th and the 60th taken frame; all other taken frames are
discarded without recognition. -/
theorem ocr_samples_twice_in_61 (fs : List Frame) (h : fs.length = 61) :
    ocrSampled fs = [(30, fs.getD 29 []), (60, fs.getD 59 [])] ∧
      (ocrSampled fs).map Prod.fst = [30, 60] := by
  have h29 : 29 < fs.length := by omega
  have h59 : 59 < fs.length := by omega
  have h60 : 60 < fs.length := by omega
  have hsplit1 : fs = fs.take 29 ++ fs.drop 29 := (List.take_append_drop _ _).symm
  have hd29 : fs.drop 29 = fs.getD 29 [] :: fs.drop 30 := by
    rw [List.getD_eq_getElem fs [] h29]
    exact List.drop_eq_getElem_cons h29
  have hd30split : fs.drop 30 = (fs.drop 30).take 29 ++ fs.drop 59 := by
    have hdd : (fs.drop 30).drop 29 = fs.drop 59 := by
      rw [List.drop_drop]
    rw [← hdd]
    exact (List.take_append_drop _ _).symm
  have hd59 : fs.drop 59 = fs.getD 59 [] :: fs.drop 60 := by
    rw [List.getD_eq_getElem fs [] h59]
    exact List.drop_eq_getElem_cons h59
  have hd60 : fs.drop 60 = [fs.getD 60 []] := by
    rw [List.getD_eq_getElem fs [] h60]
    have h61 : fs.drop 61 = [] := List.drop_eq_nil_of_le (by omega)
    rw [List.drop_eq_getElem_cons h60, h61]
  have hlen29 : (fs.take 29).length = 29 := by rw [List.length_take]; omega
  have hlen30 : ((fs.drop 30).take 29).length = 29 := by
    rw [List.length_take, List.length_drop]; omega
  have main : ocrSampled fs = (30, fs.getD 29 []) :: (60, fs.getD 59 []) :: [] := by
    rw [ocrSampled]
    conv_lhs => rw [hsplit1]
    rw [ocrSampledFrom_skip (fs.take 29) 0 (fs.drop 29) (by
      intro i hi
      rw [hlen29] at hi
      simp [OCR_FRAME_INTERVAL]
      omega)]
    rw [hlen29, hd29, ocrSampledFrom, if_pos (by simp [OCR_FRAME_INTERVAL])]
    conv_lhs => rw [hd30split]
    rw [ocrSampledFrom_skip ((fs.drop 30).take 29) 30 (fs.drop 59) (by
      intro i hi
      rw [hlen30] at hi
      simp [OCR_FRAME_INTERVAL]
      omega)]
    rw [hlen30, hd59, ocrSampledFrom, if_pos (by simp [OCR_FRAME_INTERVAL])]
    rw [hd60, ocrSampledFrom, if_neg (by simp [OCR_FRAME_INTERVAL]),
      ocrSampledFrom]
  exact ⟨main, by rw [main]; rfl⟩

/-- Witness for C6: 61 concrete frames; recognition fires on frames `[29]`
and `[59]` only. -/
theorem ocr_samples_twice_in_61_witness :
    ocrSampled ((List.range 61).map (fun n => [n])) = [(30, [29]), (60, [59])] := by
  have h := ocr_samples_twice_in_61 ((List.range 61).map (fun n => [n]))
    (by decide)
  rw [h.1]
  rfl

/-- Text is modelled as a list of characters (Python `str`). -/
abbrev PyStr := List Char

/-- Python's `str.strip()` with no argument: remove leading and trailing
whitespace. -/
def pyStrip (t : PyStr) : PyStr :=
  ((t.dropWhile Char.isWhitespace).reverse.dropWhile Char.isWhitespace).reverse

/-- The register update of `ocr_thread_func` (`oldversion.py` lines 212-214):
`latest_ocr_result` is overwritten with `text.strip()` only when the stripped
text is non-empty; otherwise it keeps its previous value. -/
def ocrUpdate (reg raw : PyStr) : PyStr :=
  if pyStrip raw ≠ [] then pyStrip raw else reg

/-- The value of `latest_ocr_result` after the sampling consumer has processed
the given sequence of raw recognition outputs, starting from the initial empty
string (`oldversion.py` line 37). -/
def latest_ocr_result_after (raws : List PyStr) : PyStr :=
  raws.foldl ocrUpdate []

/-- The `/ocr.txt` handler (`oldversion.py` lines 162-171): status 200 and the
register's current value as the body. -/
def ocrTxtResponse (reg : PyStr) : Nat × PyStr := (200, reg)

theorem latest_ocr_result_all_empty (raws : List PyStr) (reg : PyStr)
    (h : ∀ r ∈ raws, pyStrip r = []) : raws.foldl ocrUpdate reg = reg := by
  induction raws generalizing reg with
  | nil => rfl
  | cons r rest ih =>
    rw [List.foldl_cons]
    have hr : pyStrip r = [] := h r (by simp)
    have : ocrUpdate reg r = reg := by
      rw [ocrUpdate, if_neg (by simp [hr])]
    rw [this]
    exact ih reg (fun r' hr' => h r' (by simp [hr']))

/-- C7: the shared result register is updated only by recognition outputs that
are non-empty after stripping, and `GET /ocr.txt` always answers 200 with the
register's current value: the empty string before any successful recognition,
and after some raw output strips to non-empty text, exactly that stripped text
until the next successful recognition overwrites it. -/
theorem ocr_register_last_nonempty (reg raw : PyStr)
    (raws pre post : List PyStr)
    (hraw : pyStrip raw ≠ [])
    (hempty : ∀ r ∈ raws, pyStrip r = [])
    (hpost : ∀ r ∈ post, pyStrip r = []) :
    ocrUpdate reg raw = pyStrip raw ∧
      (∀ reg' raw', pyStrip raw' = [] → ocrUpdate reg' raw' = reg') ∧
      latest_ocr_result_after raws = [] ∧
      ocrTxtResponse (latest_ocr_result_after raws) = (200, []) ∧
      latest_ocr_result_after (pre ++ raw :: post) = pyStrip raw ∧
      ocrTxtResponse (latest_ocr_result_after (pre ++ raw :: post)) =
        (200, pyStrip raw) := by
  have h1 : ocrUpdate reg raw = pyStrip raw := by
    rw [ocrUpdate, if_pos hraw]
  have h3 : latest_ocr_result_after raws = [] :=
    latest_ocr_result_all_empty raws [] hempty
  have h5 : latest_ocr_result_after (pre ++ raw :: post) = pyStrip raw := by
    rw [latest_ocr_result_after, List.foldl_append, List.foldl_cons]
    have hstep : ocrUpdate (List.foldl ocrUpdate [] pre) raw = pyStrip raw := by
      rw [ocrUpdate, if_pos hraw]
    rw [hstep]
    exact latest_ocr_result_all_empty post (pyStrip raw) hpost
  refine ⟨h1, ?_, h3, by rw [h3]; rfl, h5, by rw [h5]; rfl⟩
  intro reg' raw' hc
  rw [ocrUpdate, if_neg (by simp [hc])]

/-- Witness for C7 at concrete strings: raw output with surrounding blanks. -/
theorem ocr_register_last_nonempty_witness :
    ocrUpdate "old".data " hello ".data = "hello".data ∧
      (∀ reg' raw', pyStrip raw' = [] → ocrUpdate reg' raw' = reg') ∧
      latest_ocr_result_after ["".data, "  ".data] = [] ∧
      ocrTxtResponse (latest_ocr_result_after ["".data, "  ".data]) = (200, []) ∧
      latest_ocr_result_after (["x".data] ++ " hello ".data :: ["".data, " ".data]) = "hello".data ∧
      ocrTxtResponse (latest_ocr_result_after
        (["x".data] ++ " hello ".data :: ["".data, " ".data])) = (200, "hello".data) := by
  have h := ocr_register_last_nonempty "old".data " hello ".data
    ["".data, "  ".data] ["x".data] ["".data, " ".data]
    (by decide) (by decide) (by decide)
  have hs : pyStrip " hello ".data = "hello".data := by decide
  exact ⟨by rw [h.1, hs], h.2.1, h.2.2.1, h.2.2.2.1,
    by rw [h.2.2.2.2.1, hs], by rw [h.2.2.2.2.2, hs]⟩

/-- One interleaved run of two consumers competing on `frame_queue.get`:
`sched` lists which consumer (`true` = consumer 1) performs each successive
`take`; a `take` on an empty buffer returns empty-handed (`queue.Empty`).
`queue.Queue.get` removes the head atomically, so each step moves the head
frame to exactly one consumer.  Returns (remaining buffer, frames received by
consumer 1, frames received by consumer 2). -/
def runTakes : List Bool → List Frame → List Frame → List Frame →
    List Frame × List Frame × List Frame
  | [], q, r1, r2 => (q, r1, r2)
  | _ :: sched, [], r1, r2 => runTakes sched [] r1 r2
  | c :: sched, f :: qs, r1, r2 =>
    if c then runTakes sched qs (r1 ++ [f]) r2
    else runTakes sched qs r1 (r2 ++ [f])

theorem perm_pull_front (f : Frame) (xs ys : List Frame) :
    (xs ++ [f] ++ ys).Perm (f :: (xs ++ ys)) := by
  have h1 : xs ++ [f] ++ ys = xs ++ f :: ys := by simp
  rw [h1]
  exact List.perm_middle

theorem runTakes_perm (sched : List Bool) (q r1 r2 : List Frame) :
    ((runTakes sched q r1 r2).1 ++ (runTakes sched q r1 r2).2.1 ++
      (runTakes sched q r1 r2).2.2).Perm (q ++ r1 ++ r2) := by
  induction sched generalizing q r1 r2 with
  | nil => rw [runTakes]
  | cons c sched ih =>
    match q with
    | [] =>
      rw [runTakes]
      exact ih [] r1 r2
    | f :: qs =>
      rw [runTakes]
      by_cases hc : c
      · rw [if_pos hc]
        refine (ih qs (r1 ++ [f]) r2).trans ?_
        have e1 : qs ++ (r1 ++ [f]) ++ r2 = (qs ++ r1) ++ [f] ++ r2 := by simp
        have e2 : (f :: qs) ++ r1 ++ r2 = f :: ((qs ++ r1) ++ r2) := by simp
        rw [e1, e2]
        exact perm_pull_front f (qs ++ r1) r2
      · rw [if_neg hc]
        refine (ih qs r1 (r2 ++ [f])).trans ?_
        have e1 : qs ++ r1 ++ (r2 ++ [f]) = (qs ++ r1 ++ r2) ++ [f] ++ [] := by
          simp
        have e2 : (f :: qs) ++ r1 ++ r2 = f :: ((qs ++ r1 ++ r2) ++ []) := by
          simp
        rw [e1, e2]
        exact perm_pull_front f (qs ++ r1 ++ r2) []

/-- When the schedule has at least as many takes as there are buffered frames,
the buffer ends empty. -/
theorem runTakes_drains (sched : List Bool) (q r1 r2 : List Frame)
    (h : q.length ≤ sched.length) : (runTakes sched q r1 r2).1 = [] := by
  induction sched generalizing q r1 r2 with
  | nil =>
    match q with
    | [] => rw [runTakes]
    | f :: qs => simp at h
  | cons c sched ih =>
    match q with
    | [] => rw [runTakes]; exact ih [] r1 r2 (by simp)
    | f :: qs =>
      rw [runTakes]
      by_cases hc : c
      · rw [if_pos hc]; exact ih qs _ r2 (by simp at h ⊢; omega)
      · rw [if_neg hc]; exact ih qs r1 _ (by simp at h ⊢; omega)

/-- C5: each frame removed from the buffer by `take` goes to exactly one
caller.  Two concurrent consumers draining a buffer of `K` frames receive,
between them, exactly `K` frames in total, and the frames they receive are
collectively a permutation of the buffer's contents — nothing is duplicated
or broadcast, nothing is lost. -/
theorem take_delivers_to_exactly_one (sched : List Bool) (q : List Frame)
    (h : q.length ≤ sched.length) :
    (runTakes sched q [] []).1 = [] ∧
      ((runTakes sched q [] []).2.1 ++ (runTakes sched q [] []).2.2).Perm q ∧
      (runTakes sched q [] []).2.1.length +
        (runTakes sched q [] []).2.2.length = q.length := by
  have hdr := runTakes_drains sched q [] [] h
  have hperm := runTakes_perm sched q [] []
  rw [hdr] at hperm
  simp at hperm
  refine ⟨hdr, hperm, ?_⟩
  have := hperm.length_eq
  simp at this
  omega

/-- Witness for C5: three frames, interleaved schedule of two consumers. -/
theorem take_delivers_to_exactly_one_witness :
    (runTakes [true, false, true] [[1], [2], [3]] [] []).1 = [] ∧
      ((runTakes [true, false, true] [[1], [2], [3]] [] []).2.1 ++
        (runTakes [true, false, true] [[1], [2], [3]] [] []).2.2).Perm
        [[1], [2], [3]] ∧
      (runTakes [true, false, true] [[1], [2], [3]] [] []).2.1.length +
        (runTakes [true, false, true] [[1], [2], [3]] [] []).2.2.length = 3 := by
  have h := take_delivers_to_exactly_one [true, false, true] [[1], [2], [3]]
    (by decide)
  exact ⟨h.1, h.2.1, h.2.2⟩

/-- `MJPEG_BOUNDARY = b"--FRAME--"` (`oldversion.py` line 28). -/
def MJPEG_BOUNDARY : PyStr := "--FRAME--".data

/-- Bytes of an ASCII string fragment as written on the wire. -/
def strBytes (s : PyStr) : List Byte := s.map Char.toNat

/-- The CRLF pair terminating header lines and parts. -/
def crlf : List Byte := [13, 10]

/-- One header line as `send_header` buffers it and `end_headers` flushes it:
`name: value\r\n`. -/
def headerBytes (name value : PyStr) : List Byte :=
  strBytes name ++ strBytes ": ".data ++ strBytes value ++ crlf

/-- Status of the `/stream.mjpeg` response (`oldversion.py` line 131). -/
def streamResponseStatus : Nat := 200

/-- Headers of the `/stream.mjpeg` response (`oldversion.py` lines 132-135). -/
def streamResponseHeaders : List (PyStr × PyStr) :=
  [("Content-type".data, "multipart/x-mixed-replace; boundary=--FRAME--".data),
   ("Cache-Control".data, "no-cache, private".data),
   ("Pragma".data, "no-cache".data),
   ("Connection".data, "keep-alive".data)]

/-- What the streaming loop observes at each iteration: a frame obtained from
`frame_queue.get`, a `queue.Empty` timeout (sleep and retry), or a
`BrokenPipeError` (client disconnected, loop exits).  The list ending models
the Stop Signal being observed at the loop head. -/
inductive StreamEvent where
  | frame (f : Frame)
  | empty
  | disconnect
  deriving DecidableEq

/-- The body bytes the `/stream.mjpeg` loop writes (`oldversion.py` lines
138-155), exactly as the code orders its `wfile.write` / `send_header` /
`end_headers` calls per taken frame: boundary plus CRLF, a
`Content-type: image/jpeg` line, a `Content-length` line, the blank line from
`end_headers`, the raw frame bytes, and a CRLF. -/
def streamBody : List StreamEvent → List Byte
  | [] => []
  | .frame f :: rest =>
    strBytes MJPEG_BOUNDARY ++ crlf ++
      headerBytes "Content-type".data "image/jpeg".data ++
      headerBytes "Content-length".data (toString f.length).data ++
      crlf ++ f ++ crlf ++ streamBody rest
  | .empty :: rest => streamBody rest
  | .disconnect :: _ => []

/-- The frames the connection actually streams: every frame taken before the
first disconnect. -/
def framesTaken : List StreamEvent → List Frame
  | [] => []
  | .frame f :: rest => f :: framesTaken rest
  | .empty :: rest => framesTaken rest
  | .disconnect :: _ => []

/-- One multipart part as the specification words it: the boundary line, a
`Content-Type: image/jpeg` header, a `Content-Length` header equal to the
frame's byte length, a blank line, exactly the frame's bytes, and a CRLF. -/
def specPart (f : Frame) : List Byte :=
  strBytes MJPEG_BOUNDARY ++ crlf ++
    strBytes "Content-type: image/jpeg".data ++ crlf ++
    strBytes "Content-length: ".data ++ strBytes (toString f.length).data ++
    crlf ++ crlf ++ f ++ crlf

/-- C8: `GET /stream.mjpeg` answers 200 with
`multipart/x-mixed-replace; boundary=<token>` carrying the configured boundary
token and a no-cache header, and the body it writes is exactly one
`specPart`-shaped part per taken frame — boundary line, image content type,
content length equal to the frame's byte length, blank line, the raw frame
bytes, CRLF — repeated until the client disconnects or the Stop Signal ends
the event sequence. -/
theorem stream_mjpeg_multipart (events : List StreamEvent) :
    streamResponseStatus = 200 ∧
      ("Content-type".data,
        "multipart/x-mixed-replace; boundary=".data ++ MJPEG_BOUNDARY) ∈
        streamResponseHeaders ∧
      ("Cache-Control".data, "no-cache, private".data) ∈
        streamResponseHeaders ∧
      streamBody events = ((framesTaken events).map specPart).join := by
  refine ⟨rfl, by decide, by decide, ?_⟩
  induction events with
  | nil => rfl
  | cons ev rest ih =>
    match ev with
    | .disconnect => rfl
    | .empty =>
      rw [streamBody, framesTaken]
      exact ih
    | .frame f =>
      rw [streamBody, framesTaken]
      have hc1 : strBytes "Content-type: image/jpeg".data =
          strBytes "Content-type".data ++ strBytes ": ".data ++
            strBytes "image/jpeg".data := by decide
      have hc2 : strBytes "Content-length: ".data =
          strBytes "Content-length".data ++ strBytes ": ".data := by decide
      simp only [List.map_cons, List.join, List.flatten_cons, specPart,
        headerBytes, hc1, hc2, List.append_assoc, ih]

/-- Actions of the teardown sequence on one external process
(`oldversion.py` lines 354-387): `terminate()` (SIGTERM), `kill()` (SIGKILL),
and `wait(timeout)` calls that either return after `t` seconds or raise
`subprocess.TimeoutExpired` at the `t`-second bound. -/
inductive TAct where
  | term
  | kill
  | waitOk (t : Nat)
  | waitTimeout (t : Nat)
  deriving DecidableEq

/-- Observable behaviour of an external producer process at teardown:
whether `poll()` still reports it running, and how many seconds after a
SIGTERM (resp. SIGKILL) it would exit — `none` meaning never. -/
structure ProcState where
  running : Bool
  termDelay : Option Nat
  killDelay : Option Nat

/-- The escalation branch: the graceful 5-second wait has timed out, so send
`kill()` and wait up to 2 more seconds (`oldversion.py` lines 361-367 and
379-385). -/
def killStage (killDelay : Option Nat) : List TAct × Nat :=
  match killDelay with
  | some d =>
    if d ≤ 2 then ([.term, .waitTimeout 5, .kill, .waitOk d], 5 + d)
    else ([.term, .waitTimeout 5, .kill, .waitTimeout 2], 5 + 2)
  | none => ([.term, .waitTimeout 5, .kill, .waitTimeout 2], 5 + 2)

/-- Teardown of one external process (`oldversion.py` lines 355-367 for
ffmpeg, 373-385 for raspivid): if `poll()` says it is still running, send
`terminate()` and wait up to 5 seconds; if that wait times out, send `kill()`
and wait up to 2 seconds; a process that already exited is left alone.
Returns the action trace and the elapsed teardown time. -/
def terminateProc (p : ProcState) : List TAct × Nat :=
  if p.running then
    match p.termDelay with
    | some d => if d ≤ 5 then ([.term, .waitOk d], d) else killStage p.killDelay
    | none => killStage p.killDelay
  else ([], 0)

/-- The `finally` block handles ffmpeg first, then raspivid, sequentially. -/
def teardownProcs (ffmpeg raspivid : ProcState) : List TAct × Nat :=
  ((terminateProc ffmpeg).1 ++ (terminateProc raspivid).1,
    (terminateProc ffmpeg).2 + (terminateProc raspivid).2)

/-- The graceful stage fails: the process does not exit within the 5-second
SIGTERM wait. -/
def gracefulFails (p : ProcState) : Bool :=
  match p.termDelay with
  | some d => decide (5 < d)
  | none => true

theorem killStage_time_le (kd : Option Nat) : (killStage kd).2 ≤ 7 := by
  match kd with
  | some k =>
    by_cases hk : k ≤ 2
    · simp [killStage, hk]
      omega
    · simp [killStage, hk]
  | none => simp [killStage]

theorem killStage_term_mem (kd : Option Nat) : TAct.term ∈ (killStage kd).1 := by
  match kd with
  | some k =>
    by_cases hk : k ≤ 2
    · simp [killStage, hk]
    · simp [killStage, hk]
  | none => simp [killStage]

theorem killStage_kill_mem (kd : Option Nat) : TAct.kill ∈ (killStage kd).1 := by
  match kd with
  | some k =>
    by_cases hk : k ≤ 2
    · simp [killStage, hk]
    · simp [killStage, hk]
  | none => simp [killStage]

theorem terminateProc_time_le (p : ProcState) : (terminateProc p).2 ≤ 7 := by
  rw [terminateProc]
  by_cases hr : p.running = true
  · rw [if_pos hr]
    match p.termDelay with
    | some d =>
      simp only
      by_cases hd : d ≤ 5
      · rw [if_pos hd]; omega
      · rw [if_neg hd]; exact killStage_time_le p.killDelay
    | none => exact killStage_time_le p.killDelay
  · rw [if_neg hr]; simp

theorem terminateProc_term_mem (p : ProcState) (hr : p.running = true) :
    TAct.term ∈ (terminateProc p).1 := by
  rw [terminateProc, if_pos hr]
  match p.termDelay with
  | some d =>
    simp only
    by_cases hd : d ≤ 5
    · rw [if_pos hd]; simp
    · rw [if_neg hd]; exact killStage_term_mem p.killDelay
  | none => exact killStage_term_mem p.killDelay

theorem terminateProc_kill_mem (p : ProcState) (hr : p.running = true)
    (hg : gracefulFails p = true) : TAct.kill ∈ (terminateProc p).1 := by
  rw [terminateProc, if_pos hr]
  rw [gracefulFails] at hg
  match htd : p.termDelay with
  | some d =>
    rw [htd] at hg
    simp at hg
    simp only
    rw [if_neg (by omega)]
    exact killStage_kill_mem p.killDelay
  | none => exact killStage_kill_mem p.killDelay

/-- C4: during teardown, for each still-running external producer process the
controller sends a graceful `terminate()` and waits a bounded 5 seconds; if
the process is still running it sends a forceful `kill()` and waits a bounded
2 seconds; every wait is bounded, so for any process behaviour whatsoever the
whole two-process teardown elapses at most 14 seconds, both processes are
handled (ffmpeg's stage then raspivid's), and both the graceful and — when
the graceful wait times out — the forceful stage are attempted. -/
theorem teardown_two_stage_bounded (pf pr : ProcState) :
    (teardownProcs pf pr).1 = (terminateProc pf).1 ++ (terminateProc pr).1 ∧
      (teardownProcs pf pr).2 ≤ 14 ∧
      (pf.running = true → TAct.term ∈ (terminateProc pf).1) ∧
      (pr.running = true → TAct.term ∈ (terminateProc pr).1) ∧
      (pf.running = true → gracefulFails pf = true →
        TAct.kill ∈ (terminateProc pf).1) ∧
      (pr.running = true → gracefulFails pr = true →
        TAct.kill ∈ (terminateProc pr).1) := by
  refine ⟨rfl, ?_, terminateProc_term_mem pf, terminateProc_term_mem pr,
    terminateProc_kill_mem pf, terminateProc_kill_mem pr⟩
  have h1 := terminateProc_time_le pf
  have h2 := terminateProc_time_le pr
  rw [teardownProcs]
  simp only
  omega

/-- Witness for C4: ffmpeg ignores SIGTERM but dies 1s after SIGKILL;
raspivid exits 3s after SIGTERM. -/
theorem teardown_two_stage_bounded_witness :
    TAct.term ∈ (terminateProc ⟨true, none, some 1⟩).1 ∧
      TAct.kill ∈ (terminateProc ⟨true, none, some 1⟩).1 ∧
      TAct.term ∈ (terminateProc ⟨true, some 3, none⟩).1 ∧
      (teardownProcs ⟨true, none, some 1⟩ ⟨true, some 3, none⟩).2 ≤ 14 := by
  have h := teardown_two_stage_bounded ⟨true, none, some 1⟩ ⟨true, some 3, none⟩
  exact ⟨h.2.2.1 rfl, h.2.2.2.2.1 rfl (by decide), h.2.2.2.1 rfl, h.2.1⟩

/-- Control state of `web_server_thread_func` (`oldversion.py` lines
178-193): blocked inside `httpd.serve_forever()`, reached the
`while not stop_event.is_set(): httpd.handle_request()` polling loop (lines
184-185), or finished. -/
inductive WebSrvState where
  | inServeForever
  | pollLoop
  | finished
  deriving DecidableEq

/-- One scheduling step of the web server thread.  `serve_forever()` returns
only when `httpd.shutdown()` is called; until then the thread stays inside it
regardless of `stop_event`.  Once in the polling loop, a step that observes
the stop signal finishes. -/
def webSrvStep (shutdownCalled stopSet : Bool) : WebSrvState → WebSrvState
  | .inServeForever => if shutdownCalled then .pollLoop else .inServeForever
  | .pollLoop => if stopSet then .finished else .pollLoop
  | .finished => .finished

/-- The web server thread's state after `n` scheduling steps from its start
inside `serve_forever()`. -/
def webSrvRun (shutdownCalled stopSet : Bool) : Nat → WebSrvState
  | 0 => .inServeForever
  | n + 1 => webSrvStep shutdownCalled stopSet (webSrvRun shutdownCalled stopSet n)

/-- `httpd.shutdown()` is called nowhere in `oldversion.py`. -/
def shutdown_is_ever_called : Bool := false

/-- C3 is violated by the web server thread: since `httpd.shutdown()` is never
called, `serve_forever()` never returns, so for every time bound `n` — and in
particular with the Stop Signal set — the thread is still blocked inside
`serve_forever`, never reaches its stop-signal polling loop (lines 184-185,
dead code), and never finishes.  The demuxer and OCR loops do poll the signal,
but the claim quantifies over every worker loop, so the HTTP server thread
refutes it; the dead polling loop shows the intended behaviour. -/
theorem web_server_never_observes_stop (stopSet : Bool) (n : Nat) :
    webSrvRun shutdown_is_ever_called stopSet n = .inServeForever ∧
      webSrvRun shutdown_is_ever_called stopSet n ≠ .finished := by
  induction n with
  | zero => exact ⟨rfl, fun hx => WebSrvState.noConfusion hx⟩
  | succ m ih =>
    have : webSrvRun shutdown_is_ever_called stopSet (m + 1) =
        webSrvStep shutdown_is_ever_called stopSet
          (webSrvRun shutdown_is_ever_called stopSet m) := rfl
    rw [this, ih.1]
    exact ⟨rfl, fun hx => WebSrvState.noConfusion hx⟩

/-- The accumulation buffer holds a `0xFFD9` end marker strictly before any
`0xFFD8` start marker (or holds an end marker and no start marker at all). -/
def stuckState (data : List Byte) : Bool :=
  match find2 0xff 0xd9 data, find2 0xff 0xd8 data with
  | some e, some s => decide (e < s)
  | some _, none => true
  | none, _ => false

theorem stuckState_no_extract (data : List Byte) (h : stuckState data = true) :
    extractLoop data = ([], data) := by
  apply extractLoop_no_step
  intro s e hs he
  rw [stuckState, he, hs] at h
  simp at h
  omega

theorem stuckState_append (data c : List Byte) (h : stuckState data = true) :
    stuckState (data ++ c) = true := by
  rw [stuckState] at h
  match he : find2 0xff 0xd9 data with
  | none => rw [he] at h; simp at h
  | some e =>
    rw [he] at h
    have he' : find2 0xff 0xd9 (data ++ c) = some e :=
      find2_append_some _ _ _ _ _ he
    rw [stuckState, he']
    match hs : find2 0xff 0xd8 data with
    | some s =>
      rw [hs] at h
      simp at h
      rw [find2_append_some _ _ _ _ _ hs]
      simpa using h
    | none =>
      match hs' : find2 0xff 0xd8 (data ++ c) with
      | none => rfl
      | some s' =>
        have hge := find2_append_none _ _ _ _ _ hs hs'
        have hlt := find2_lt_length _ _ _ _ he
        simp
        omega

/-- C9: once the accumulation buffer holds an end marker before the first
start marker, the extraction condition `start_index < end_index` can never
again become true: whatever non-empty chunks keep arriving, the demuxer
extracts no frame ever again, the stray prefix is never discarded (the buffer
stays a prefix of its future values), and the buffer grows by exactly every
byte read — without bound. -/
theorem demuxer_stuck_forever (data : List Byte) (chunks : List (List Byte))
    (h : stuckState data = true) (hne : ∀ ch ∈ chunks, ch ≠ []) :
    readerRun chunks data = ([], data ++ chunks.join) ∧
      (readerRun chunks data).2.length = data.length + chunks.join.length := by
  have main : readerRun chunks data = ([], data ++ chunks.join) := by
    induction chunks generalizing data with
    | nil => simp [readerRun]
    | cons ch chs ih =>
      have hc : ch ≠ [] := hne ch (by simp)
      rw [readerRun, if_neg hc]
      simp only
      rw [stuckState_no_extract (data ++ ch) (stuckState_append data ch h)]
      simp only
      rw [ih (data ++ ch) (stuckState_append data ch h)
        (fun d hd => hne d (by simp [hd]))]
      simp
  refine ⟨main, ?_⟩
  rw [main]
  simp

/-- Witness for C9: a buffer starting `FFD9 ... FFD8` never yields a frame,
even when later chunks contain complete marker pairs. -/
theorem demuxer_stuck_forever_witness :
    readerRun [[0x01], [0xff, 0xd8, 0x02, 0xff, 0xd9]] [0xff, 0xd9, 0xff, 0xd8] =
      ([], [0xff, 0xd9, 0xff, 0xd8, 0x01, 0xff, 0xd8, 0x02, 0xff, 0xd9]) ∧
      (readerRun [[0x01], [0xff, 0xd8, 0x02, 0xff, 0xd9]]
        [0xff, 0xd9, 0xff, 0xd8]).2.length = 4 + 6 := by
  have h := demuxer_stuck_forever [0xff, 0xd9, 0xff, 0xd8]
    [[0x01], [0xff, 0xd8, 0x02, 0xff, 0xd9]] (by decide) (by decide)
  exact ⟨by rw [h.1]; rfl, by rw [h.2]; rfl⟩
